import Mathlib

set_option maxHeartbeats 1000000

/-- Field display kinds of a configuration field, mirroring the kind constants
KindScalar, KindArray, Kind2DArray and KindMap of the docs package.
Modelled from the spec: the kind enumeration is declared outside the rendered
source file; the spec lists the kinds scalar, sequence, sequence-of-sequences
and mapping. -/
inductive FieldKind where
  | kindScalar
  | kindArray
  | kind2DArray
  | kindMap
deriving DecidableEq

/-- Modelled from the spec: FieldSpec is declared outside the rendered source
file. A node of the field specification tree: name, human readable type label,
display kind, the advanced and deprecated flags, and child specifications for
composite kinds. -/
inductive FieldSpec where
  | mk (name : String) (typeName : String) (kind : FieldKind)
      (isAdvanced : Bool) (isDeprecated : Bool) (children : List FieldSpec)

/-- Name of a field specification. -/
def FieldSpec.name : FieldSpec → String
  | .mk n _ _ _ _ _ => n

/-- Human readable type label of a field specification (the Go Type field). -/
def FieldSpec.typeName : FieldSpec → String
  | .mk _ t _ _ _ _ => t

/-- Display kind of a field specification (the Go Kind field). -/
def FieldSpec.kind : FieldSpec → FieldKind
  | .mk _ _ k _ _ _ => k

/-- The IsAdvanced flag of a field specification. -/
def FieldSpec.IsAdvanced : FieldSpec → Bool
  | .mk _ _ _ a _ _ => a

/-- The IsDeprecated flag of a field specification. -/
def FieldSpec.IsDeprecated : FieldSpec → Bool
  | .mk _ _ _ _ d _ => d

/-- Child specifications of a field specification. -/
def FieldSpec.children : FieldSpec → List FieldSpec
  | .mk _ _ _ _ _ cs => cs

/-- Replace the type label of a field specification, modelling the Go
assignment v.Spec.Type = s in AsMarkdown. -/
def FieldSpec.withTypeName : FieldSpec → String → FieldSpec
  | .mk n _ k a d cs, t => .mk n t k a d cs

/-- Replace the kind of a field specification, modelling the Go assignment
v.Spec.Kind = KindScalar in AsMarkdown. -/
def FieldSpec.withKind : FieldSpec → FieldKind → FieldSpec
  | .mk n t _ a d cs, k => .mk n t k a d cs

/-- The advanced field filter passed to createOrderedConfig by
genExampleConfigs: a field is kept when it is not deprecated. -/
def advancedFieldFilter (f : FieldSpec) : Bool :=
  !f.IsDeprecated

/-- The common field filter passed to createOrderedConfig by
genExampleConfigs: a field is kept when it is neither advanced nor
deprecated. -/
def commonFieldFilter (f : FieldSpec) : Bool :=
  !f.IsAdvanced && !f.IsDeprecated

/-- A generic ordered tree node, the shallow embedding of a yaml.Node value:
a scalar, a mapping with an ordered entry list, or a sequence. -/
inductive YamlNode where
  | scalar (s : String)
  | mapping (entries : List (String × YamlNode))
  | sequence (items : List YamlNode)

/-- A raw Go example value (the fullConfigExample argument of type any).
The chanv constructor models a value that the yaml encoder cannot represent,
such as a Go channel, on which encoding fails. -/
inductive GoValue where
  | strv (s : String)
  | intv (n : Int)
  | boolv (b : Bool)
  | mapv (entries : List (String × GoValue))
  | listv (items : List GoValue)
  | chanv

/-- The error message produced when the yaml encoder meets a value it cannot
represent. -/
def yamlEncodeErrorMsg : String :=
  "yaml: cannot marshal type"

mutual
/-- Encoding of a raw Go value into a generic ordered tree node, the shallow
embedding of newNode.Encode(rawExample): structure and entry order are
preserved and unencodable values yield an error. -/
def encodeValue : GoValue → Except String YamlNode
  | .strv s => .ok (.scalar s)
  | .intv n => .ok (.scalar (toString n))
  | .boolv b => .ok (.scalar (if b then "true" else "false"))
  | .mapv entries =>
      match encodeEntries entries with
      | .ok es => .ok (.mapping es)
      | .error e => .error e
  | .listv items =>
      match encodeItems items with
      | .ok vs => .ok (.sequence vs)
      | .error e => .error e
  | .chanv => .error yamlEncodeErrorMsg

/-- Encoding of the entry list of a raw mapping value. -/
def encodeEntries : List (String × GoValue) → Except String (List (String × YamlNode))
  | [] => .ok []
  | (k, v) :: rest =>
      match encodeValue v with
      | .error e => .error e
      | .ok n =>
        match encodeEntries rest with
        | .error e => .error e
        | .ok ns => .ok ((k, n) :: ns)

/-- Encoding of the item list of a raw sequence value. -/
def encodeItems : List GoValue → Except String (List YamlNode)
  | [] => .ok []
  | v :: rest =>
      match encodeValue v with
      | .error e => .error e
      | .ok n =>
        match encodeItems rest with
        | .error e => .error e
        | .ok ns => .ok (n :: ns)
end

/-- Child specifications matching a mapping key: the children of the first
specification with that name, or none when the key is unspecified. -/
def childSpecsFor (specs : List FieldSpec) (k : String) : List FieldSpec :=
  match specs.find? (fun f => f.name == k) with
  | some f => f.children
  | none => []

mutual
/-- Modelled from the spec: a field whose filter result is false is omitted
only when it also has no filtered-in descendants; this predicate decides
whether some descendant of the field passes the filter. -/
def hasFilteredDescendant (p : FieldSpec → Bool) : FieldSpec → Bool
  | .mk _ _ _ _ _ cs => anyFilteredIn p cs

/-- Whether some specification in the list, or a descendant of one, passes
the filter. -/
def anyFilteredIn (p : FieldSpec → Bool) : List FieldSpec → Bool
  | [] => false
  | c :: rest => (p c || hasFilteredDescendant p c) || anyFilteredIn p rest
end

/-- A field is retained when the filter accepts it or it has a filtered-in
descendant. -/
def fieldKeep (p : FieldSpec → Bool) (f : FieldSpec) : Bool :=
  p f || hasFilteredDescendant p f

/-- Whether a mapping key is retained: a key matching a specification is
retained when that field is retained, and an unspecified key is kept. -/
def keepKey (p : FieldSpec → Bool) (specs : List FieldSpec) (k : String) : Bool :=
  match specs.find? (fun f => f.name == k) with
  | some f => fieldKeep p f
  | none => true

/-- Removal of the synthetic type-discriminator key from a mapping entry
list when the RemoveTypeField option is set. -/
def removeTypeKey (rt : Bool) (l : List (String × YamlNode)) : List (String × YamlNode) :=
  if rt then l.filter (fun e => !(e.1 == "type")) else l

/-- The entries of a mapping that survive the field filter. -/
def keepEntries (p : FieldSpec → Bool) (specs : List FieldSpec)
    (l : List (String × YamlNode)) : List (String × YamlNode) :=
  l.filter (fun e => keepKey p specs e.1)

/-- Reordering of retained mapping entries to the declared specification
order, with unspecified keys appended after in their original relative
order. -/
def reorderKept (specs : List FieldSpec) (l : List (String × YamlNode)) :
    List (String × YamlNode) :=
  specs.flatMap (fun f => l.filter (fun e => e.1 == f.name)) ++
    l.filter (fun e => !(specs.any (fun f => f.name == e.1)))

mutual
/-- Modelled from the spec: SanitiseYAML is declared outside the rendered
source file. The ordered example builder walks the tree alongside the field
specification: it drops the synthetic type key when requested, omits fields
rejected by the filter that have no filtered-in descendants, reorders
retained keys to the declared order with unspecified keys appended after,
and recurses into composite kinds. -/
def SanitiseYAML (p : FieldSpec → Bool) (rt : Bool) (specs : List FieldSpec) :
    YamlNode → YamlNode
  | .scalar s => .scalar s
  | .mapping entries =>
      .mapping (reorderKept specs
        (keepEntries p specs (removeTypeKey rt (sanitiseEntries p rt specs entries))))
  | .sequence items => .sequence (sanitiseItems p rt specs items)

/-- Recursive sanitisation of a mapping entry list: each value is sanitised
against the child specifications of its key. -/
def sanitiseEntries (p : FieldSpec → Bool) (rt : Bool) (specs : List FieldSpec) :
    List (String × YamlNode) → List (String × YamlNode)
  | [] => []
  | (k, v) :: rest =>
      (k, SanitiseYAML p rt (childSpecsFor specs k) v) :: sanitiseEntries p rt specs rest

/-- Recursive sanitisation of a sequence item list. -/
def sanitiseItems (p : FieldSpec → Bool) (rt : Bool) (specs : List FieldSpec) :
    List YamlNode → List YamlNode
  | [] => []
  | v :: rest => SanitiseYAML p rt specs v :: sanitiseItems p rt specs rest
end

/-- The shallow embedding of createOrderedConfig: encode the raw example into
a generic ordered node, then sanitise it with RemoveTypeField set and the
given field filter. The field specification tree is supplied by the component
registry in the real code and is modelled as an explicit parameter. -/
def createOrderedConfig (specs : List FieldSpec) (rawExample : GoValue)
    (filter : FieldSpec → Bool) : Except String YamlNode :=
  match encodeValue rawExample with
  | .error e => .error e
  | .ok n => .ok (SanitiseYAML filter true specs n)

mutual
/-- Modelled from the spec: marshalYAML is declared outside the rendered
source file; the serialization is a deterministic human readable block style
form with stable key order and two space indentation. This function produces
the lines of that form; empty collections are written inline. -/
def yamlLines : YamlNode → List String
  | .scalar s => [s]
  | .mapping [] => ["\x7b\x7d"]
  | .mapping (e :: rest) => entryLinesList (e :: rest)
  | .sequence [] => ["[]"]
  | .sequence (v :: rest) => itemLinesList (v :: rest)

/-- Lines of a nonempty mapping entry list: scalar and empty collection
values are written inline after the key, other values start a two space
indented block under the key. -/
def entryLinesList : List (String × YamlNode) → List String
  | [] => []
  | (k, YamlNode.scalar s) :: rest => (k ++ ": " ++ s) :: entryLinesList rest
  | (k, YamlNode.mapping []) :: rest => (k ++ ": " ++ "\x7b\x7d") :: entryLinesList rest
  | (k, YamlNode.sequence []) :: rest => (k ++ ": " ++ "[]") :: entryLinesList rest
  | (k, v) :: rest =>
      ((k ++ ":") :: (yamlLines v).map (fun l => "  " ++ l)) ++ entryLinesList rest

/-- Lines of a nonempty sequence item list: the first line of each item gets
a dash marker and its remaining lines are indented under it. -/
def itemLinesList : List YamlNode → List String
  | [] => []
  | v :: rest =>
      (match yamlLines v with
       | [] => ["-"]
       | l :: ls => ("- " ++ l) :: ls.map (fun s => "  " ++ s)) ++ itemLinesList rest
end

/-- Concatenation of lines, each terminated by a newline. -/
def unlines : List String → String
  | [] => ""
  | l :: rest => l ++ "\n" ++ unlines rest

/-- Modelled from the spec: marshalYAML serializes a node to its block style
textual form. -/
def marshalYAML (n : YamlNode) : String :=
  unlines (yamlLines n)

/-- Result of genExampleConfigs as observed by a Go caller: a normal return
of the two strings and a nil error, a normal return with a non nil error, or
a panic escaping the function. -/
inductive GenResult where
  | ok (commonConfigStr : String) (advConfigStr : String)
  | err (e : String)
  | panicked (e : String)
deriving DecidableEq

/-- The shallow embedding of genExampleConfigs: build the advanced view with
the advanced filter and the common view with the common filter, panicking
when either build fails, optionally nest each view under the type identifier,
and serialize both. The field specification tree is modelled as an explicit
parameter. -/
def genExampleConfigs (t : String) (nest : Bool) (specs : List FieldSpec)
    (fullConfigExample : GoValue) : GenResult :=
  match createOrderedConfig specs fullConfigExample advancedFieldFilter with
  | .error e => .panicked e
  | .ok advConfig0 =>
    match createOrderedConfig specs fullConfigExample commonFieldFilter with
    | .error e => .panicked e
    | .ok commonConfig0 =>
      let advConfig := if nest then YamlNode.mapping [(t, advConfig0)] else advConfig0
      let commonConfig := if nest then YamlNode.mapping [(t, commonConfig0)] else commonConfig0
      GenResult.ok (marshalYAML commonConfig) (marshalYAML advConfig)

/-- An example shown in the documentation, mirroring AnnotatedExample.
Modelled from the spec: the type is declared outside the rendered source
file. -/
structure AnnotatedExample where
  Title : String
  Summary : String
  Config : String

/-- A field entry of the flattened field list passed to the document
template, mirroring FieldSpecCtx. Modelled from the spec: the type is
declared outside the rendered source file. -/
structure FieldSpecCtx where
  Spec : FieldSpec

/-- A component specification, mirroring the fields of ComponentSpec used by
AsMarkdown. The TypeName field models the Go field named Type. Modelled from
the spec: the type is declared outside the rendered source file. -/
structure ComponentSpec where
  Name : String
  TypeName : String
  Status : String
  Summary : String
  Description : String
  Categories : List String
  Examples : List AnnotatedExample
  Footnotes : String
  Version : String
  Config : FieldSpec

/-- Copy of a component specification with a replaced status. -/
def ComponentSpec.withStatus (c : ComponentSpec) (s : String) : ComponentSpec :=
  { c with Status := s }

/-- The template context built by AsMarkdown, mirroring componentContext.
The TypeName field models the Go field named Type. -/
structure componentContext where
  Name : String
  TypeName : String
  FrontMatterSummary : String
  Summary : String
  Description : String
  Categories : String
  Examples : List AnnotatedExample
  Fields : List FieldSpecCtx
  Footnotes : String
  CommonConfig : String
  AdvancedConfig : String
  Status : String
  Version : String

/-- The stable status constant StatusStable. Modelled from the spec: the
constant is declared outside the rendered source file. -/
def StatusStable : String :=
  "stable"

/-- Whether the first character list is a leading segment of the second. -/
def startsWithChars : List Char → List Char → Bool
  | [], _ => true
  | _ :: _, [] => false
  | p :: ps, c :: cs => p == c && startsWithChars ps cs

/-- Whether the first character list occurs contiguously inside the second. -/
def containsChars (sub : List Char) : List Char → Bool
  | [] => startsWithChars sub []
  | c :: cs => startsWithChars sub (c :: cs) || containsChars sub cs

/-- The Go test strings.Contains(s, sub), as character list containment. -/
def goContains (s sub : String) : Bool :=
  containsChars sub.data s.data

/-- The error built by AsMarkdown for a summary containing empty lines. -/
def summaryErrMsg (c : ComponentSpec) : String :=
  c.TypeName ++ " component \x27" ++ c.Name ++ "\x27 has a summary containing empty lines"

/-- Modelled from the spec: json.Marshal of a list of category strings,
rendered as a JSON array literal; escaping inside category names is not
modelled. -/
def jsonMarshalStrings (l : List String) : String :=
  "[" ++ String.intercalate "," (l.map (fun s => "\"" ++ s ++ "\"")) ++ "]"

/-- Removal of one leading newline, modelling the Go slicing c.Description[1:]
applied when the first byte is a newline. -/
def stripLeadingNewline (s : String) : String :=
  match s.data with
  | '\n' :: rest => String.mk rest
  | _ => s

mutual
/-- Modelled from the spec: FlattenChildrenForDocs is declared outside the
rendered source file; it derives the flattened field list of the
configuration field tree, in declaration order. -/
def FieldSpec.FlattenChildrenForDocs : FieldSpec → List FieldSpecCtx
  | .mk _ _ _ _ _ cs => flattenFieldList cs

/-- Preorder flattening of a list of field specifications. -/
def flattenFieldList : List FieldSpec → List FieldSpecCtx
  | [] => []
  | c :: rest =>
      FieldSpecCtx.mk c :: (FieldSpec.FlattenChildrenForDocs c ++ flattenFieldList rest)
end

/-- The normalization applied by AsMarkdown to each flattened field: a
mapping kind gets the type label object, a sequence kind the label array, a
sequence of sequences the label two-dimensional array, and afterwards the
kind is set to scalar. -/
def normalizeFieldForDocs (v : FieldSpecCtx) : FieldSpecCtx :=
  let s := v.Spec
  let s :=
    if s.kind == FieldKind.kindMap then s.withTypeName ("object")
    else if s.kind == FieldKind.kindArray then s.withTypeName ("array")
    else if s.kind == FieldKind.kind2DArray then s.withTypeName ("two-dimensional array")
    else s
  FieldSpecCtx.mk (s.withKind FieldKind.kindScalar)

/-- Construction of the template context from a component specification and
the two serialized configuration strings, mirroring the context assembly in
AsMarkdown: an empty status becomes stable, categories become a JSON array
when present, one leading newline of the description and the footnotes is
stripped, and the flattened fields are normalized. -/
def mkContext (c : ComponentSpec) (common adv : String) : componentContext :=
  { Name := c.Name
    TypeName := c.TypeName
    FrontMatterSummary := ""
    Summary := c.Summary
    Description := stripLeadingNewline c.Description
    Categories := if 0 < c.Categories.length then jsonMarshalStrings c.Categories else ""
    Examples := c.Examples
    Fields := (FieldSpec.FlattenChildrenForDocs c.Config).map normalizeFieldForDocs
    Footnotes := stripLeadingNewline c.Footnotes
    CommonConfig := common
    AdvancedConfig := adv
    Status := if c.Status = "" then StatusStable else c.Status
    Version := c.Version }

/-- The front matter block of the rendered document. -/
def frontMatterSection (ctx : componentContext) : String :=
  "---\ntitle: " ++ ctx.Name ++ "\ntype: " ++ ctx.TypeName ++ "\nstatus: " ++ ctx.Status ++ "\n"
  ++ (if 0 < ctx.FrontMatterSummary.length then "description: \"" ++ ctx.FrontMatterSummary ++ "\"\n" else "")
  ++ (if 0 < ctx.Categories.length then "categories: " ++ ctx.Categories ++ "\n" else "")
  ++ "---\n"

/-- The fixed autogeneration notice and theme import lines of the template. -/
def autogenNote : String :=
  "\n<!--\n     THIS FILE IS AUTOGENERATED!\n\n     To make changes please edit the corresponding source file under internal/impl/<provider>.\n-->\n\nimport Tabs from \x27@theme/Tabs\x27;\nimport TabItem from \x27@theme/TabItem\x27;\n\n"

/-- The status caution blocks of the template: one block for beta, one for
experimental and one for deprecated, and nothing for any other status. -/
def cautionSection (status : String) : String :=
  (if status = "beta" then ":::caution BETA\nThis component is mostly stable but breaking changes could still be made outside of major version releases if a fundamental problem with the component is found.\n:::\n" else "")
  ++ (if status = "experimental" then ":::caution EXPERIMENTAL\nThis component is experimental and therefore subject to change or removal outside of major version releases.\n:::\n" else "")
  ++ (if status = "deprecated" then ":::warning DEPRECATED\nThis component is deprecated and will be removed in the next major version release. Please consider moving onto [alternative components](#alternatives).\n:::\n" else "")

/-- The summary and version lines of the rendered document. -/
def summarySection (ctx : componentContext) : String :=
  (if 0 < ctx.Summary.length then ctx.Summary ++ "\n" else "")
  ++ (if 0 < ctx.Version.length then "\nIntroduced in version " ++ ctx.Version ++ ".\n" else "")
  ++ "\n"

/-- The configuration example part of the rendered document: when the common
and the advanced strings are equal, a single yml block headed by the comment
line saying Config fields, showing default values; otherwise a Tabs structure
with a Common and an Advanced TabItem holding the two strings. -/
def configSection (ctx : componentContext) : String :=
  if ctx.CommonConfig = ctx.AdvancedConfig then
    "```yml\n# Config fields, showing default values\n" ++ ctx.CommonConfig ++ "```\n"
  else
    "\n<Tabs defaultValue=\"common\" values=\x7b[\n  \x7b label: \x27Common\x27, value: \x27common\x27, \x7d,\n  \x7b label: \x27Advanced\x27, value: \x27advanced\x27, \x7d,\n]\x7d>\n\n<TabItem value=\"common\">\n\n```yml\n# Common config fields, showing default values\n"
    ++ ctx.CommonConfig
    ++ "```\n\n</TabItem>\n<TabItem value=\"advanced\">\n\n```yml\n# All config fields, showing default values\n"
    ++ ctx.AdvancedConfig
    ++ "```\n\n</TabItem>\n</Tabs>\n"

/-- The description part of the rendered document. -/
def descriptionSection (ctx : componentContext) : String :=
  (if 0 < ctx.Description.length then "\n" ++ ctx.Description ++ "\n" else "") ++ "\n"

/-- The Fields section emitted before the examples when the flattened field
list has at most four entries; the body comes from the field_docs template,
modelled as the fieldDocs parameter. -/
def fieldsSmallSection (fieldDocs : componentContext → String) (ctx : componentContext) : String :=
  if ctx.Fields.length ≤ 4 ∧ 0 < ctx.Fields.length then "## Fields\n\n" ++ fieldDocs ctx else ""

/-- One label entry of the examples tab list. -/
def exampleTabLabel (e : AnnotatedExample) : String :=
  "  \x7b label: \x27" ++ e.Title ++ "\x27, value: \x27" ++ e.Title ++ "\x27, \x7d,\n"

/-- One TabItem of the examples section. -/
def exampleTabItem (e : AnnotatedExample) : String :=
  "<TabItem value=\"" ++ e.Title ++ "\">\n\n"
  ++ (if 0 < e.Summary.length then e.Summary ++ "\n" else "") ++ "\n"
  ++ (if 0 < e.Config.length then "```yaml" ++ e.Config ++ "```\n" else "") ++ "\n"
  ++ "</TabItem>\n"

/-- The examples part of the rendered document. -/
def examplesSection (ctx : componentContext) : String :=
  match ctx.Examples with
  | [] => ""
  | e0 :: _ =>
      "## Examples\n\n<Tabs defaultValue=\"" ++ e0.Title ++ "\" values=\x7b[\n"
      ++ String.join (ctx.Examples.map exampleTabLabel)
      ++ "]\x7d>\n\n"
      ++ String.join (ctx.Examples.map exampleTabItem)
      ++ "</Tabs>\n\n"

/-- The Fields section emitted after the examples when the flattened field
list has more than four entries. -/
def fieldsLargeSection (fieldDocs : componentContext → String) (ctx : componentContext) : String :=
  if 4 < ctx.Fields.length then "## Fields\n\n" ++ fieldDocs ctx else ""

/-- The footnotes part of the rendered document. -/
def footnotesSection (ctx : componentContext) : String :=
  (if 0 < ctx.Footnotes.length then ctx.Footnotes ++ "\n" else "") ++ "\n"

/-- The document text before the configuration example part. -/
def sectionsBeforeConfig (ctx : componentContext) : String :=
  frontMatterSection ctx ++ autogenNote ++ cautionSection ctx.Status ++ summarySection ctx

/-- The document text after the configuration example part. -/
def sectionsAfterConfig (fieldDocs : componentContext → String) (ctx : componentContext) : String :=
  descriptionSection ctx ++ fieldsSmallSection fieldDocs ctx ++ examplesSection ctx
  ++ fieldsLargeSection fieldDocs ctx ++ footnotesSection ctx

/-- The execution of componentTemplate on a context: the document is the
text before the configuration part, the configuration part, and the text
after it. The field_docs template defined by FieldsTemplate is not part of
the rendered source file and is modelled as the fieldDocs parameter. -/
def renderComponent (fieldDocs : componentContext → String) (ctx : componentContext) : String :=
  sectionsBeforeConfig ctx ++ configSection ctx ++ sectionsAfterConfig fieldDocs ctx

/-- Result of AsMarkdown as observed by a Go caller: a normal return of the
output bytes and an optional error, or a panic escaping the call. -/
inductive RenderResult where
  | ret (output : String) (err : Option String)
  | panicked (e : String)
deriving DecidableEq

/-- The shallow embedding of AsMarkdown: reject a summary containing a blank
line, generate the two configuration strings, build the template context and
execute the template. A panic of genExampleConfigs escapes the call. The
field specification tree passed to the generator is the children of the
component configuration field, and the field_docs template is modelled as
the fieldDocs parameter. -/
def AsMarkdown (fieldDocs : componentContext → String) (c : ComponentSpec)
    (nest : Bool) (fullConfigExample : GoValue) : RenderResult :=
  if goContains c.Summary ("\n\n") then
    RenderResult.ret ("") (some (summaryErrMsg c))
  else
    match genExampleConfigs c.TypeName nest c.Config.children fullConfigExample with
    | GenResult.panicked e => RenderResult.panicked e
    | GenResult.err e => RenderResult.ret ("") (some e)
    | GenResult.ok common adv =>
        RenderResult.ret (renderComponent fieldDocs (mkContext c common adv)) none

mutual
/-- The key paths present in a node: for every mapping entry the one element
path of its key, and every path of its value prefixed by the key; sequences
are traversed transparently. This makes precise the set of fields present in
a filtered view. -/
def presentPaths : YamlNode → List (List String)
  | .scalar _ => []
  | .mapping entries => entryPaths entries
  | .sequence items => itemPaths items

/-- Paths contributed by a mapping entry list. -/
def entryPaths : List (String × YamlNode) → List (List String)
  | [] => []
  | (k, v) :: rest => ([k] :: (presentPaths v).map (fun pth => k :: pth)) ++ entryPaths rest

/-- Paths contributed by a sequence item list. -/
def itemPaths : List YamlNode → List (List String)
  | [] => []
  | v :: rest => presentPaths v ++ itemPaths rest
end

/-- Whether a string is free of newline characters. -/
def cleanStr (s : String) : Bool :=
  decide ('\n' ∉ s.data)

mutual
/-- Whether every mapping key and every scalar payload of a node is free of
newline characters, so that the serialized lines of the node contain no
newline. -/
def cleanNode : YamlNode → Bool
  | .scalar s => cleanStr s
  | .mapping entries => cleanEntries entries
  | .sequence items => cleanItems items

/-- Cleanliness of a mapping entry list. -/
def cleanEntries : List (String × YamlNode) → Bool
  | [] => true
  | (k, v) :: rest => cleanStr k && cleanNode v && cleanEntries rest

/-- Cleanliness of a sequence item list. -/
def cleanItems : List YamlNode → Bool
  | [] => true
  | v :: rest => cleanNode v && cleanItems rest
end

/-- Removal of the first n characters of a string. -/
def dropChars (n : Nat) (s : String) : String :=
  String.mk (s.data.drop n)

/-- Helper of the line splitter: push a character onto the first line of a
split result. -/
def strConsHead (c : Char) : List String → List String
  | [] => [String.mk [c]]
  | l :: ls => String.mk (c :: l.data) :: ls

/-- Splitting of a character list into newline terminated lines; a trailing
chunk without a terminator still forms a line. -/
def splitLinesChars : List Char → List String
  | [] => []
  | c :: cs => if c = '\n' then "" :: splitLinesChars cs else strConsHead c (splitLinesChars cs)

/-- Splitting of a string into its lines. -/
def splitLines (s : String) : List String :=
  splitLinesChars s.data

/-- Unwrapping of a block of lines at a single top level key: a single line
starting with the key, a colon and a space loses that leading part, and a
block whose first line is the key followed by a colon loses that line and
two columns of indentation on the remaining lines. -/
def unwrapLines (t : String) : List String → List String
  | [] => []
  | [l] => if startsWithChars (t ++ ": ").data l.data then [dropChars (t.length + 2) l] else [l]
  | l :: rest => if l = t ++ ":" then rest.map (fun s => dropChars 2 s) else l :: rest

/-- Textual unwrapping of a serialized configuration at its single top level
key: split into lines, unwrap, and join again. -/
def unwrapConfigText (t : String) (s : String) : String :=
  unlines (unwrapLines t (splitLines s))

/-- Structural induction over yaml nodes that descends through the entry and
item lists. -/
def YamlNode.forAll (motive : YamlNode → Prop)
    (hs : ∀ s, motive (YamlNode.scalar s))
    (hm : ∀ entries, (∀ e ∈ entries, motive e.2) → motive (YamlNode.mapping entries))
    (hq : ∀ items, (∀ v ∈ items, motive v) → motive (YamlNode.sequence items)) :
    ∀ n, motive n
  | .scalar s => hs s
  | .mapping entries =>
      hm entries (fun e he => YamlNode.forAll motive hs hm hq e.2)
  | .sequence items =>
      hq items (fun v hv => YamlNode.forAll motive hs hm hq v)
termination_by n => sizeOf n
decreasing_by
  · have h1 := List.sizeOf_lt_of_mem he
    cases e
    simp_all
    omega
  · have h1 := List.sizeOf_lt_of_mem hv
    simp
    omega

/-- Structural induction over field specifications that descends through the
child list. -/
def FieldSpec.forAll (motive : FieldSpec → Prop)
    (h : ∀ f : FieldSpec, (∀ c ∈ f.children, motive c) → motive f) :
    ∀ f, motive f
  | .mk n t k a d cs =>
      h (.mk n t k a d cs) (fun c hc => FieldSpec.forAll motive h c)
termination_by f => sizeOf f
decreasing_by
  have h1 := List.sizeOf_lt_of_mem hc
  simp [FieldSpec.children] at h1
  simp
  omega

/-- Field docs body used for concrete evaluations: an empty body. -/
def emptyFieldDocs : componentContext → String := fun _ => ""

/-- A leaf field specification for concrete evaluations. -/
def sampleField (nm : String) (adv dep : Bool) : FieldSpec :=
  FieldSpec.mk nm "string" FieldKind.kindScalar adv dep []

/-- The configuration tree of the spec example scenario: fields a (common),
b (advanced) and c (deprecated), declared in that order. -/
def sampleConfigSpec : FieldSpec :=
  FieldSpec.mk "root" "object" FieldKind.kindMap false false
    [sampleField "a" false false, sampleField "b" true false, sampleField "c" false true]

/-- A small component specification for concrete evaluations. -/
def sampleComponent : ComponentSpec :=
  { Name := "comp"
    TypeName := "processor"
    Status := ""
    Summary := "sum"
    Description := ""
    Categories := []
    Examples := []
    Footnotes := ""
    Version := ""
    Config := sampleConfigSpec }

/-- The component of the spec example scenario about blank lines: its summary
holds two consecutive line breaks. -/
def badSummaryComponent : ComponentSpec :=
  { sampleComponent with Summary := "a\n\nb" }

/-- The raw example of the spec example scenario, with keys out of
declaration order. -/
def sampleExample : GoValue :=
  GoValue.mapv [("c", GoValue.intv 3), ("a", GoValue.intv 1), ("b", GoValue.intv 2)]

/-- A context whose common and advanced configuration strings agree. -/
def sampleCtxEq : componentContext :=
  mkContext sampleComponent "a: 1\n" "a: 1\n"

/-- A context whose common and advanced configuration strings differ. -/
def sampleCtxNe : componentContext :=
  mkContext sampleComponent "a: 1\n" "a: 1\nb: 2\n"

/-- C1: the common filter accepts exactly the fields that are neither
advanced nor deprecated, and the advanced filter accepts exactly the fields
that are not deprecated. -/
theorem builtinFieldFilters_spec (f : FieldSpec) :
    (commonFieldFilter f = true ↔ (f.IsAdvanced = false ∧ f.IsDeprecated = false)) ∧
    (advancedFieldFilter f = true ↔ f.IsDeprecated = false) := by
  constructor
  · simp [commonFieldFilter]
  · simp [advancedFieldFilter]

/-- C8: in the flattened field list passed to the template every kind is
normalized to scalar, composite kinds are first mapped to their type label,
object for a mapping, array for a sequence and two-dimensional array for a
sequence of sequences, scalar fields keep their type label, and the context
fields are exactly the flattened list with this normalization applied. -/
theorem flattenedFieldNormalization :
    (∀ v : FieldSpecCtx,
      (normalizeFieldForDocs v).Spec.kind = FieldKind.kindScalar ∧
      (normalizeFieldForDocs v).Spec.typeName =
        (match v.Spec.kind with
         | FieldKind.kindMap => "object"
         | FieldKind.kindArray => "array"
         | FieldKind.kind2DArray => "two-dimensional array"
         | FieldKind.kindScalar => v.Spec.typeName) ∧
      (normalizeFieldForDocs v).Spec.name = v.Spec.name) ∧
    ∀ (c : ComponentSpec) (common adv : String),
      (mkContext c common adv).Fields =
        (FieldSpec.FlattenChildrenForDocs c.Config).map normalizeFieldForDocs := by
  constructor
  · intro v
    obtain ⟨⟨n, t, k, a, d, cs⟩⟩ := v
    cases k <;>
      simp [normalizeFieldForDocs, FieldSpec.kind, FieldSpec.typeName,
        FieldSpec.withTypeName, FieldSpec.withKind, FieldSpec.name]
  · intro c common adv
    rfl

/-- C7: AsMarkdown is deterministic; the embedding is a pure function of the
component specification, the nest flag, the example value and the field docs
template body, so two invocations on the same input yield identical
output. -/
theorem asMarkdown_deterministic (fieldDocs : componentContext → String)
    (c : ComponentSpec) (nest : Bool) (ex : GoValue) :
    AsMarkdown fieldDocs c nest ex = AsMarkdown fieldDocs c nest ex := rfl

/-- C6: whenever AsMarkdown returns a non nil error, the returned output is
empty; no error return carries partially rendered output. -/
theorem asMarkdown_no_partial_output (fieldDocs : componentContext → String)
    (c : ComponentSpec) (nest : Bool) (ex : GoValue) (out : String) (e : String)
    (h : AsMarkdown fieldDocs c nest ex = RenderResult.ret out (some e)) :
    out = "" := by
  unfold AsMarkdown at h
  split at h
  · injection h with h1 h2
    exact h1.symm
  · split at h
    · exact RenderResult.noConfusion h
    · injection h with h1 h2
      exact h1.symm
    · injection h with h1 h2
      exact Option.noConfusion h2

/-- Witness for C6 at a concrete erroring input. -/
theorem asMarkdown_no_partial_output_witness :
    AsMarkdown emptyFieldDocs badSummaryComponent true sampleExample
      = RenderResult.ret "" (some (summaryErrMsg badSummaryComponent)) ∧
    ("" : String) = "" :=
  ⟨by rfl,
   asMarkdown_no_partial_output emptyFieldDocs badSummaryComponent true sampleExample
     "" (summaryErrMsg badSummaryComponent) (by rfl)⟩

/-- Helper: genExampleConfigs never returns with a non nil error; every
failure inside it escapes as a panic, so the error return branch of
AsMarkdown is dead code. -/
theorem genExampleConfigs_ne_err (t : String) (nest : Bool) (specs : List FieldSpec)
    (ex : GoValue) (e : String) :
    genExampleConfigs t nest specs ex ≠ GenResult.err e := by
  unfold genExampleConfigs
  cases h1 : createOrderedConfig specs ex advancedFieldFilter <;> simp
  cases h2 : createOrderedConfig specs ex commonFieldFilter <;> simp

/-- C4: a summary containing two consecutive line breaks makes AsMarkdown
fail with the summary error and empty output before any rendering work, and
with a summary free of blank lines the check passes, after which AsMarkdown
never returns a non nil error at all. -/
theorem asMarkdown_blank_line_summary_check (fieldDocs : componentContext → String)
    (c : ComponentSpec) (nest : Bool) (ex : GoValue) :
    (goContains c.Summary ("\n\n") = true →
      AsMarkdown fieldDocs c nest ex = RenderResult.ret "" (some (summaryErrMsg c))) ∧
    (goContains c.Summary ("\n\n") = false →
      ∀ out e, AsMarkdown fieldDocs c nest ex ≠ RenderResult.ret out (some e)) := by
  constructor
  · intro h
    unfold AsMarkdown
    rw [if_pos h]
  · intro h out e hcontra
    unfold AsMarkdown at hcontra
    rw [if_neg (by simp [h])] at hcontra
    cases hg : genExampleConfigs c.TypeName nest c.Config.children ex with
    | ok common adv =>
        rw [hg] at hcontra
        injection hcontra with h1 h2
        exact Option.noConfusion h2
    | err e2 => exact genExampleConfigs_ne_err _ _ _ _ _ hg
    | panicked e2 =>
        rw [hg] at hcontra
        exact RenderResult.noConfusion hcontra

/-- Witness for C4 at concrete inputs for both directions of the check. -/
theorem asMarkdown_blank_line_summary_check_witness :
    AsMarkdown emptyFieldDocs badSummaryComponent true sampleExample
      = RenderResult.ret "" (some (summaryErrMsg badSummaryComponent)) ∧
    AsMarkdown emptyFieldDocs sampleComponent true sampleExample
      ≠ RenderResult.ret "" (some "boom") :=
  ⟨(asMarkdown_blank_line_summary_check emptyFieldDocs badSummaryComponent true sampleExample).1
     (by rfl),
   (asMarkdown_blank_line_summary_check emptyFieldDocs sampleComponent true sampleExample).2
     (by rfl) "" "boom"⟩

/-- Helper: an encoding failure of the raw example makes genExampleConfigs
panic with that error. -/
theorem genExampleConfigs_panics_on_encode_error (t : String) (nest : Bool)
    (specs : List FieldSpec) (ex : GoValue) (e : String)
    (h : encodeValue ex = Except.error e) :
    genExampleConfigs t nest specs ex = GenResult.panicked e := by
  have h1 : createOrderedConfig specs ex advancedFieldFilter = Except.error e := by
    unfold createOrderedConfig
    rw [h]
  unfold genExampleConfigs
  rw [h1]

/-- C3 counterexample: at a concrete input whose example value cannot be
encoded, AsMarkdown panics and does not return the error to its caller. -/
theorem encodeErrorNotReturned_counterexample :
    encodeValue GoValue.chanv = Except.error yamlEncodeErrorMsg ∧
    AsMarkdown emptyFieldDocs sampleComponent false GoValue.chanv
      = RenderResult.panicked yamlEncodeErrorMsg ∧
    ¬ ∃ out e, AsMarkdown emptyFieldDocs sampleComponent false GoValue.chanv
      = RenderResult.ret out (some e) := by
  refine ⟨rfl, rfl, ?_⟩
  rintro ⟨out, e, hcontra⟩
  have h2 : RenderResult.panicked yamlEncodeErrorMsg = RenderResult.ret out (some e) :=
    Eq.trans (by rfl) hcontra
  exact RenderResult.noConfusion h2

/-- C3 amended: when encoding of the example configuration fails and the
summary check passes, the error escapes AsMarkdown by a panic raised inside
genExampleConfigs instead of being returned as a non nil error; it is not
silently swallowed. -/
theorem encodeErrorEscapesByPanic (fieldDocs : componentContext → String)
    (c : ComponentSpec) (nest : Bool) (ex : GoValue) (e : String)
    (hs : goContains c.Summary ("\n\n") = false)
    (he : encodeValue ex = Except.error e) :
    AsMarkdown fieldDocs c nest ex = RenderResult.panicked e := by
  unfold AsMarkdown
  rw [if_neg (by simp [hs])]
  rw [genExampleConfigs_panics_on_encode_error _ _ _ _ _ he]

/-- Witness for the amended C3 at a concrete input with a nested unencodable
value. -/
theorem encodeErrorEscapesByPanic_witness :
    AsMarkdown emptyFieldDocs sampleComponent true (GoValue.listv [GoValue.chanv])
      = RenderResult.panicked yamlEncodeErrorMsg :=
  encodeErrorEscapesByPanic emptyFieldDocs sampleComponent true
    (GoValue.listv [GoValue.chanv]) yamlEncodeErrorMsg (by rfl) (by rfl)

/-- C10: when the serialized common and advanced configurations are equal the
configuration part of the document is a single yml block headed by the
comment naming Config fields, showing default values, and the part adds no
angle bracket character so no tab structure appears around it; when they
differ the part is the Tabs structure holding the common text inside the
Common item and the advanced text inside the Advanced item; the rendered
document always decomposes around this part. -/
theorem configSection_single_or_tabs (ctx : componentContext) :
    (ctx.CommonConfig = ctx.AdvancedConfig →
      configSection ctx =
        "```yml\n# Config fields, showing default values\n" ++ ctx.CommonConfig ++ "```\n" ∧
      (configSection ctx).data.count '<' = ctx.CommonConfig.data.count '<') ∧
    (ctx.CommonConfig ≠ ctx.AdvancedConfig →
      configSection ctx =
        "\n<Tabs defaultValue=\"common\" values=\x7b[\n  \x7b label: \x27Common\x27, value: \x27common\x27, \x7d,\n  \x7b label: \x27Advanced\x27, value: \x27advanced\x27, \x7d,\n]\x7d>\n\n<TabItem value=\"common\">\n\n```yml\n# Common config fields, showing default values\n"
          ++ ctx.CommonConfig
          ++ "```\n\n</TabItem>\n<TabItem value=\"advanced\">\n\n```yml\n# All config fields, showing default values\n"
          ++ ctx.AdvancedConfig
          ++ "```\n\n</TabItem>\n</Tabs>\n") ∧
    ∀ fieldDocs, renderComponent fieldDocs ctx =
      sectionsBeforeConfig ctx ++ configSection ctx ++ sectionsAfterConfig fieldDocs ctx := by
  refine ⟨?_, ?_, ?_⟩
  · intro h
    have hsec : configSection ctx =
        "```yml\n# Config fields, showing default values\n" ++ ctx.CommonConfig ++ "```\n" := by
      unfold configSection
      rw [if_pos h]
    refine ⟨hsec, ?_⟩
    rw [hsec]
    have hA : ("```yml\n# Config fields, showing default values\n" : String).data.count '<' = 0 := by
      decide
    have hB : ("```\n" : String).data.count '<' = 0 := by
      decide
    rw [String.data_append, String.data_append, List.count_append, List.count_append, hA, hB]
    omega
  · intro h
    unfold configSection
    rw [if_neg h]
  · intro fieldDocs
    rfl

/-- Witness for C10 at a concrete context for each branch. -/
theorem configSection_single_or_tabs_witness :
    configSection sampleCtxEq =
      "```yml\n# Config fields, showing default values\n" ++ sampleCtxEq.CommonConfig ++ "```\n" ∧
    configSection sampleCtxNe =
      "\n<Tabs defaultValue=\"common\" values=\x7b[\n  \x7b label: \x27Common\x27, value: \x27common\x27, \x7d,\n  \x7b label: \x27Advanced\x27, value: \x27advanced\x27, \x7d,\n]\x7d>\n\n<TabItem value=\"common\">\n\n```yml\n# Common config fields, showing default values\n"
        ++ sampleCtxNe.CommonConfig
        ++ "```\n\n</TabItem>\n<TabItem value=\"advanced\">\n\n```yml\n# All config fields, showing default values\n"
        ++ sampleCtxNe.AdvancedConfig
        ++ "```\n\n</TabItem>\n</Tabs>\n" :=
  ⟨((configSection_single_or_tabs sampleCtxEq).1 (by rfl)).1,
   (configSection_single_or_tabs sampleCtxNe).2.1 (by decide)⟩

/-- C9: a component with empty status renders exactly as the same component
with status stable, the context status becomes stable so the status line of
the front matter reads stable, the caution section for the stable status is
empty, and a non empty status is passed through to the context unchanged. -/
theorem emptyStatusRendersAsStable (fieldDocs : componentContext → String)
    (c : ComponentSpec) (nest : Bool) (ex : GoValue) :
    (c.Status = "" →
      AsMarkdown fieldDocs c nest ex
        = AsMarkdown fieldDocs (c.withStatus StatusStable) nest ex) ∧
    (∀ common adv, c.Status = "" → (mkContext c common adv).Status = "stable") ∧
    cautionSection "stable" = "" ∧
    (∀ common adv, c.Status ≠ "" → (mkContext c common adv).Status = c.Status) := by
  refine ⟨?_, ?_, ?_, ?_⟩
  · intro h
    have hmk : ∀ common adv,
        mkContext c common adv = mkContext (c.withStatus StatusStable) common adv := by
      intro common adv
      simp [mkContext, ComponentSpec.withStatus, h, StatusStable]
    have h1 : summaryErrMsg (c.withStatus StatusStable) = summaryErrMsg c := by
      simp [summaryErrMsg, ComponentSpec.withStatus]
    have h2 : (c.withStatus StatusStable).Summary = c.Summary := by
      simp [ComponentSpec.withStatus]
    have h3 : (c.withStatus StatusStable).TypeName = c.TypeName := by
      simp [ComponentSpec.withStatus]
    have h4 : (c.withStatus StatusStable).Config = c.Config := by
      simp [ComponentSpec.withStatus]
    unfold AsMarkdown
    rw [h1, h2, h3, h4]
    simp only [hmk]
  · intro common adv h
    simp [mkContext, h, StatusStable]
  · rfl
  · intro common adv h
    simp [mkContext, h]

/-- Witness for C9 at concrete inputs, with empty and with non empty
status. -/
theorem emptyStatusRendersAsStable_witness :
    AsMarkdown emptyFieldDocs sampleComponent true sampleExample
      = AsMarkdown emptyFieldDocs (sampleComponent.withStatus StatusStable) true sampleExample ∧
    (mkContext sampleComponent "x" "y").Status = "stable" ∧
    (mkContext (sampleComponent.withStatus "beta") "x" "y").Status = "beta" :=
  ⟨(emptyStatusRendersAsStable emptyFieldDocs sampleComponent true sampleExample).1 rfl,
   (emptyStatusRendersAsStable emptyFieldDocs sampleComponent true sampleExample).2.1 "x" "y" rfl,
   (emptyStatusRendersAsStable emptyFieldDocs (sampleComponent.withStatus "beta") true
     sampleExample).2.2.2 "x" "y" (by decide)⟩

/-- Helper: monotonicity of the filtered-in test over a list of children. -/
theorem anyFilteredIn_mono_of (p q : FieldSpec → Bool)
    (hpq : ∀ f, p f = true → q f = true) (cs : List FieldSpec)
    (ih : ∀ c ∈ cs, hasFilteredDescendant p c = true → hasFilteredDescendant q c = true) :
    anyFilteredIn p cs = true → anyFilteredIn q cs = true := by
  induction cs with
  | nil => simp [anyFilteredIn]
  | cons c rest ihr =>
      intro h
      simp only [anyFilteredIn, Bool.or_eq_true] at h ⊢
      rcases h with (hc | hcd) | hr
      · exact Or.inl (Or.inl (hpq c hc))
      · exact Or.inl (Or.inr (ih c (by simp) hcd))
      · exact Or.inr (ihr (fun c2 hc2 => ih c2 (by simp [hc2])) hr)

/-- Helper: a weaker filter finds a filtered-in descendant wherever a
stronger one does. -/
theorem hasFilteredDescendant_mono (p q : FieldSpec → Bool)
    (hpq : ∀ f, p f = true → q f = true) :
    ∀ f, hasFilteredDescendant p f = true → hasFilteredDescendant q f = true := by
  refine FieldSpec.forAll
    (fun f => hasFilteredDescendant p f = true → hasFilteredDescendant q f = true) ?_
  intro f ih
  obtain ⟨n, t, k, a, d, cs⟩ := f
  simp only [hasFilteredDescendant]
  have ih2 : ∀ c ∈ cs, hasFilteredDescendant p c = true → hasFilteredDescendant q c = true := by
    simpa [FieldSpec.children] using ih
  exact anyFilteredIn_mono_of p q hpq cs ih2

/-- Helper: monotonicity of key retention in the filter. -/
theorem keepKey_mono (p q : FieldSpec → Bool)
    (hpq : ∀ f, p f = true → q f = true) (specs : List FieldSpec) (k : String) :
    keepKey p specs k = true → keepKey q specs k = true := by
  unfold keepKey
  cases hf : specs.find? (fun f => f.name == k) with
  | none => simp
  | some f =>
      simp only [fieldKeep, Bool.or_eq_true]
      rintro (h | h)
      · exact Or.inl (hpq f h)
      · exact Or.inr (hasFilteredDescendant_mono p q hpq f h)

/-- Helper: the entry sanitiser is a map over the entry list. -/
theorem sanitiseEntries_eq_map (p : FieldSpec → Bool) (rt : Bool) (specs : List FieldSpec)
    (l : List (String × YamlNode)) :
    sanitiseEntries p rt specs l
      = l.map (fun e => (e.1, SanitiseYAML p rt (childSpecsFor specs e.1) e.2)) := by
  induction l with
  | nil => simp [sanitiseEntries]
  | cons e rest ih =>
      obtain ⟨k, v⟩ := e
      simp [sanitiseEntries, ih]

/-- Helper: the item sanitiser is a map over the item list. -/
theorem sanitiseItems_eq_map (p : FieldSpec → Bool) (rt : Bool) (specs : List FieldSpec)
    (l : List YamlNode) :
    sanitiseItems p rt specs l = l.map (SanitiseYAML p rt specs) := by
  induction l with
  | nil => simp [sanitiseItems]
  | cons v rest ih => simp [sanitiseItems, ih]

/-- Helper: membership description of the paths of an entry list. -/
theorem mem_entryPaths (path : List String) (l : List (String × YamlNode)) :
    path ∈ entryPaths l ↔
      ∃ e ∈ l, path = [e.1] ∨ ∃ rest, path = e.1 :: rest ∧ rest ∈ presentPaths e.2 := by
  induction l with
  | nil => simp [entryPaths]
  | cons e tail ih =>
      obtain ⟨k, v⟩ := e
      simp only [entryPaths, List.mem_append, List.mem_cons, List.mem_map, ih]
      constructor
      · rintro (h | h)
        · rcases h with h | ⟨rest, hrest, hpath⟩
          · exact ⟨(k, v), Or.inl rfl, Or.inl h⟩
          · exact ⟨(k, v), Or.inl rfl, Or.inr ⟨rest, hpath.symm, hrest⟩⟩
        · rcases h with ⟨e2, he2, hcase⟩
          exact ⟨e2, Or.inr he2, hcase⟩
      · rintro ⟨e2, he2 | he2, hcase⟩
        · subst he2
          rcases hcase with h | ⟨rest, hpath, hrest⟩
          · exact Or.inl (Or.inl h)
          · exact Or.inl (Or.inr ⟨rest, hrest, hpath.symm⟩)
        · exact Or.inr ⟨e2, he2, hcase⟩

/-- Helper: membership description of the paths of an item list. -/
theorem mem_itemPaths (path : List String) (l : List YamlNode) :
    path ∈ itemPaths l ↔ ∃ v ∈ l, path ∈ presentPaths v := by
  induction l with
  | nil => simp [itemPaths]
  | cons v tail ih =>
      simp only [itemPaths, List.mem_append, List.mem_cons, ih]
      constructor
      · rintro (h | ⟨v2, hv2, h⟩)
        · exact ⟨v, Or.inl rfl, h⟩
        · exact ⟨v2, Or.inr hv2, h⟩
      · rintro ⟨v2, hv2 | hv2, h⟩
        · subst hv2; exact Or.inl h
        · exact Or.inr ⟨v2, hv2, h⟩

/-- Helper: every reordered entry comes from the retained list. -/
theorem mem_of_mem_reorderKept (specs : List FieldSpec) (l : List (String × YamlNode))
    (e : String × YamlNode) (h : e ∈ reorderKept specs l) : e ∈ l := by
  unfold reorderKept at h
  rcases List.mem_append.mp h with h | h
  · obtain ⟨f, _, he⟩ := List.mem_flatMap.mp h
    exact (List.mem_filter.mp he).1
  · exact (List.mem_filter.mp h).1

/-- Helper: every retained entry appears in the reordered list. -/
theorem mem_reorderKept_of_mem (specs : List FieldSpec) (l : List (String × YamlNode))
    (e : String × YamlNode) (he : e ∈ l) : e ∈ reorderKept specs l := by
  unfold reorderKept
  by_cases hs : specs.any (fun f => f.name == e.1) = true
  · obtain ⟨f, hf, hname⟩ := List.any_eq_true.mp hs
    refine List.mem_append.mpr (Or.inl (List.mem_flatMap.mpr ⟨f, hf, ?_⟩))
    refine List.mem_filter.mpr ⟨he, ?_⟩
    have : f.name = e.1 := by simpa using hname
    simp [this]
  · refine List.mem_append.mpr (Or.inr (List.mem_filter.mpr ⟨he, ?_⟩))
    simpa using hs

/-- Helper: membership description of type key removal. -/
theorem mem_removeTypeKey (rt : Bool) (l : List (String × YamlNode)) (e : String × YamlNode) :
    e ∈ removeTypeKey rt l ↔ e ∈ l ∧ (rt = true → (e.1 == "type") = false) := by
  unfold removeTypeKey
  cases rt <;> simp [List.mem_filter]

/-- Helper: weakening the field filter can only add paths to the sanitised
view, never remove one. -/
theorem presentPaths_sanitise_mono (p q : FieldSpec → Bool)
    (hpq : ∀ f, p f = true → q f = true) (rt : Bool) :
    ∀ n specs path, path ∈ presentPaths (SanitiseYAML p rt specs n) →
      path ∈ presentPaths (SanitiseYAML q rt specs n) := by
  refine YamlNode.forAll
    (fun n => ∀ specs path, path ∈ presentPaths (SanitiseYAML p rt specs n) →
      path ∈ presentPaths (SanitiseYAML q rt specs n)) ?_ ?_ ?_
  · intro s specs path h
    simp [SanitiseYAML, presentPaths] at h
  · intro entries ih specs path h
    simp only [SanitiseYAML, presentPaths] at h ⊢
    rcases (mem_entryPaths _ _).mp h with ⟨e, he, hpath⟩
    have he1 : e ∈ keepEntries p specs (removeTypeKey rt (sanitiseEntries p rt specs entries)) :=
      mem_of_mem_reorderKept _ _ _ he
    unfold keepEntries at he1
    have he2 := List.mem_filter.mp he1
    have he3 := (mem_removeTypeKey _ _ _).mp he2.1
    have hmem := he3.1
    rw [sanitiseEntries_eq_map] at hmem
    rcases List.mem_map.mp hmem with ⟨orig, horig, heq⟩
    have hq1 : (orig.1, SanitiseYAML q rt (childSpecsFor specs orig.1) orig.2)
        ∈ sanitiseEntries q rt specs entries := by
      rw [sanitiseEntries_eq_map]
      exact List.mem_map_of_mem _ horig
    have hkey : e.1 = orig.1 := by rw [← heq]
    have hq2 : (orig.1, SanitiseYAML q rt (childSpecsFor specs orig.1) orig.2)
        ∈ removeTypeKey rt (sanitiseEntries q rt specs entries) := by
      refine (mem_removeTypeKey _ _ _).mpr ⟨hq1, ?_⟩
      intro hrt
      have := he3.2 hrt
      rwa [hkey] at this
    have hq3 : (orig.1, SanitiseYAML q rt (childSpecsFor specs orig.1) orig.2)
        ∈ keepEntries q specs (removeTypeKey rt (sanitiseEntries q rt specs entries)) := by
      unfold keepEntries
      refine List.mem_filter.mpr ⟨hq2, ?_⟩
      have hk := he2.2
      rw [hkey] at hk
      exact keepKey_mono p q hpq specs orig.1 hk
    have hq4 := mem_reorderKept_of_mem specs _ _ hq3
    refine (mem_entryPaths _ _).mpr
      ⟨(orig.1, SanitiseYAML q rt (childSpecsFor specs orig.1) orig.2), hq4, ?_⟩
    rcases hpath with hpath | ⟨rest, hpath, hrest⟩
    · exact Or.inl (by rw [hpath, hkey])
    · refine Or.inr ⟨rest, by rw [hpath, hkey], ?_⟩
      have hv : e.2 = SanitiseYAML p rt (childSpecsFor specs orig.1) orig.2 := by rw [← heq]
      rw [hv] at hrest
      exact ih orig horig (childSpecsFor specs orig.1) rest hrest
  · intro items ih specs path h
    simp only [SanitiseYAML, presentPaths] at h ⊢
    rw [sanitiseItems_eq_map] at h ⊢
    rcases (mem_itemPaths _ _).mp h with ⟨v2, hv2, hpath⟩
    rcases List.mem_map.mp hv2 with ⟨v, hv, rfl⟩
    exact (mem_itemPaths _ _).mpr
      ⟨SanitiseYAML q rt specs v, List.mem_map_of_mem _ hv, ih v hv specs path hpath⟩

/-- C2: the common filter implies the advanced filter on every field
specification, and the set of field paths present in the common view built
by createOrderedConfig inside genExampleConfigs is a subset of the paths
present in the advanced view, for every specification tree and example. -/
theorem commonView_subset_advancedView (specs : List FieldSpec) (ex : GoValue)
    (nc na : YamlNode)
    (hc : createOrderedConfig specs ex commonFieldFilter = Except.ok nc)
    (ha : createOrderedConfig specs ex advancedFieldFilter = Except.ok na) :
    (∀ f, commonFieldFilter f = true → advancedFieldFilter f = true) ∧
    ∀ path, path ∈ presentPaths nc → path ∈ presentPaths na := by
  have hfil : ∀ f, commonFieldFilter f = true → advancedFieldFilter f = true := by
    intro f h
    simp only [commonFieldFilter, Bool.and_eq_true, Bool.not_eq_true'] at h
    simp only [advancedFieldFilter, Bool.not_eq_true']
    exact h.2
  refine ⟨hfil, ?_⟩
  unfold createOrderedConfig at hc ha
  cases henc : encodeValue ex with
  | error e =>
      rw [henc] at hc
      exact Except.noConfusion hc
  | ok n =>
      rw [henc] at hc ha
      injection hc with hc2
      injection ha with ha2
      subst hc2
      subst ha2
      intro path hp
      exact presentPaths_sanitise_mono commonFieldFilter advancedFieldFilter hfil true
        n specs path hp

/-- Witness for C2 on the spec example scenario: the path of field a lies in
the common view and hence in the advanced view. -/
theorem commonView_subset_advancedView_witness :
    ["a"] ∈ presentPaths (YamlNode.mapping [("a", YamlNode.scalar "1"), ("b", YamlNode.scalar "2")]) :=
  (commonView_subset_advancedView sampleConfigSpec.children sampleExample
    (YamlNode.mapping [("a", YamlNode.scalar "1")])
    (YamlNode.mapping [("a", YamlNode.scalar "1"), ("b", YamlNode.scalar "2")])
    (by rfl) (by rfl)).2 ["a"] (by decide)

/-- Helper: the string rebuilt from the character list of a string is the
string itself. -/
theorem strMk_data (s : String) : String.mk s.data = s := by
  cases s
  rfl

/-- Helper: cleanliness distributes over string append. -/
theorem cleanStr_append (a b : String) :
    cleanStr (a ++ b) = (cleanStr a && cleanStr b) := by
  simp [cleanStr, String.data_append, List.mem_append, not_or]

/-- Helper: a leading segment test succeeds on the segment itself extended
by anything. -/
theorem startsWithChars_self_append (l m : List Char) :
    startsWithChars l (l ++ m) = true := by
  induction l with
  | nil => rfl
  | cons c cs ih => simp [startsWithChars, ih]

/-- Helper: a common leading segment cancels in the leading segment test. -/
theorem startsWithChars_append_left (l m1 m2 : List Char) :
    startsWithChars (l ++ m1) (l ++ m2) = startsWithChars m1 m2 := by
  induction l with
  | nil => rfl
  | cons c cs ih => simp [startsWithChars, ih]

/-- Helper: dropping the length of a leading list plus an offset. -/
theorem drop_length_add_append (l m : List Char) (n : Nat) :
    (l ++ m).drop (l.length + n) = m.drop n := by
  induction l with
  | nil => simp
  | cons c cs ih => simpa [Nat.succ_add] using ih

/-- Helper: dropping two columns undoes the two space indentation. -/
theorem dropChars_two_indent (x : String) : dropChars 2 ("  " ++ x) = x := by
  unfold dropChars
  rw [String.data_append]
  exact strMk_data x

/-- Helper: the serialized lines of a node form a nonempty list. -/
theorem yamlLines_ne_nil (n : YamlNode) : yamlLines n ≠ [] := by
  cases n with
  | scalar s => simp [yamlLines]
  | mapping entries =>
      cases entries with
      | nil => simp [yamlLines]
      | cons e rest =>
          obtain ⟨k, v⟩ := e
          cases v with
          | scalar s => simp [yamlLines, entryLinesList]
          | mapping es => cases es <;> simp [yamlLines, entryLinesList]
          | sequence vs => cases vs <;> simp [yamlLines, entryLinesList]
  | sequence items =>
      cases items with
      | nil => simp [yamlLines]
      | cons v rest =>
          cases h : yamlLines v <;> simp [yamlLines, itemLinesList, h]

/-- Helper: unwrapping a single inline line made of the key, a colon, a
space and a payload recovers the payload. -/
theorem unwrapLines_inline (t s : String) :
    unwrapLines t [t ++ ": " ++ s] = [s] := by
  have hstart : startsWithChars (t ++ ": ").data ((t ++ ": " ++ s)).data = true := by
    have h1 : (t ++ ": " ++ s).data = (t ++ ": ").data ++ s.data := by
      rw [String.data_append]
    rw [h1]
    exact startsWithChars_self_append _ _
  have hdrop : dropChars (t.length + 2) (t ++ ": " ++ s) = s := by
    unfold dropChars
    have h1 : (t ++ ": " ++ s).data = (t ++ ": ").data ++ s.data := by
      rw [String.data_append]
    have hl : t.length = t.data.length := by
      cases t
      rfl
    have hlen : t.length + 2 = (t ++ ": ").data.length := by
      rw [String.data_append, List.length_append, hl]
      rfl
    rw [h1, hlen, List.drop_left]
  have harm : unwrapLines t [t ++ ": " ++ s]
      = if startsWithChars (t ++ ": ").data ((t ++ ": " ++ s)).data
        then [dropChars (t.length + 2) (t ++ ": " ++ s)] else [t ++ ": " ++ s] := rfl
  rw [harm, if_pos hstart, hdrop]

/-- Helper: unwrapping an indented block under the key line recovers the
block lines. -/
theorem unwrapLines_block (t : String) (w : YamlNode)
    (hne : yamlLines w ≠ []) :
    unwrapLines t ((t ++ ":") :: (yamlLines w).map (fun l => "  " ++ l))
      = yamlLines w := by
  cases h2 : (yamlLines w).map (fun l => "  " ++ l) with
  | nil => exact absurd (List.map_eq_nil_iff.mp h2) hne
  | cons b bs =>
      have harm : unwrapLines t ((t ++ ":") :: b :: bs)
          = if (t ++ ":") = t ++ ":" then (b :: bs).map (fun s => dropChars 2 s)
            else (t ++ ":") :: b :: bs := rfl
      rw [harm, if_pos rfl, ← h2, List.map_map]
      have hcomp : ∀ l ∈ yamlLines w,
          ((fun s => dropChars 2 s) ∘ fun l => "  " ++ l) l = id l := by
        intro l _
        simp [Function.comp, dropChars_two_indent]
      rw [List.map_congr_left hcomp, List.map_id]

/-- Helper: unwrapping the serialized lines of a single entry mapping keyed
by t recovers the serialized lines of the wrapped node. -/
theorem unwrapLines_wrap (t : String) (view : YamlNode) :
    unwrapLines t (yamlLines (YamlNode.mapping [(t, view)])) = yamlLines view := by
  cases view with
  | scalar s =>
      have h1 : yamlLines (YamlNode.mapping [(t, YamlNode.scalar s)])
          = [t ++ ": " ++ s] := by
        simp only [yamlLines, entryLinesList]
      rw [h1, unwrapLines_inline]
      simp only [yamlLines]
  | mapping es =>
      cases es with
      | nil =>
          have h1 : yamlLines (YamlNode.mapping [(t, YamlNode.mapping [])])
              = [t ++ ": " ++ "\x7b\x7d"] := by
            simp only [yamlLines, entryLinesList]
          rw [h1, unwrapLines_inline]
          simp only [yamlLines]
      | cons e2 rest2 =>
          have h1 : yamlLines (YamlNode.mapping [(t, YamlNode.mapping (e2 :: rest2))])
              = (t ++ ":") :: (yamlLines (YamlNode.mapping (e2 :: rest2))).map
                  (fun l => "  " ++ l) := by
            simp only [yamlLines, entryLinesList, List.append_nil]
          rw [h1, unwrapLines_block _ _ (yamlLines_ne_nil _)]
  | sequence vs =>
      cases vs with
      | nil =>
          have h1 : yamlLines (YamlNode.mapping [(t, YamlNode.sequence [])])
              = [t ++ ": " ++ "[]"] := by
            simp only [yamlLines, entryLinesList]
          rw [h1, unwrapLines_inline]
          simp only [yamlLines]
      | cons v2 rest2 =>
          have h1 : yamlLines (YamlNode.mapping [(t, YamlNode.sequence (v2 :: rest2))])
              = (t ++ ":") :: (yamlLines (YamlNode.sequence (v2 :: rest2))).map
                  (fun l => "  " ++ l) := by
            simp only [yamlLines, entryLinesList, List.append_nil]
          rw [h1, unwrapLines_block _ _ (yamlLines_ne_nil _)]

/-- Helper: splitting recognises a newline free line followed by its
terminator. -/
theorem splitLinesChars_append_line (l rest : List Char) (hl : '\n' ∉ l) :
    splitLinesChars (l ++ '\n' :: rest) = String.mk l :: splitLinesChars rest := by
  induction l with
  | nil =>
      simp [splitLinesChars]
  | cons c cs ih =>
      have hc : ¬ c = '\n' := by
        intro hcontra
        exact hl (by simp [hcontra])
      have hcs : '\n' ∉ cs := by
        intro hcontra
        exact hl (by simp [hcontra])
      have hstep : splitLinesChars ((c :: cs) ++ '\n' :: rest)
          = strConsHead c (splitLinesChars (cs ++ '\n' :: rest)) := by
        simp only [List.cons_append, splitLinesChars, if_neg hc]
        rfl
      rw [hstep, ih hcs, strConsHead]

/-- Helper: splitting undoes joining for newline free lines. -/
theorem splitLines_unlines (ls : List String) (h : ∀ l ∈ ls, cleanStr l = true) :
    splitLines (unlines ls) = ls := by
  induction ls with
  | nil => rfl
  | cons l rest ih =>
      have hdat : (l ++ "\n" ++ unlines rest).data = l.data ++ '\n' :: (unlines rest).data := by
        rw [String.data_append, String.data_append, List.append_assoc]
        rfl
      have hcl : '\n' ∉ l.data := by
        have h2 := h l (by simp)
        simpa [cleanStr] using h2
      unfold splitLines
      rw [unlines, hdat, splitLinesChars_append_line _ _ hcl, strMk_data]
      exact congrArg (fun xs => l :: xs) (ih (fun x hx => h x (by simp [hx])))

/-- Helper: membership description of entry list cleanliness. -/
theorem cleanEntries_iff (l : List (String × YamlNode)) :
    cleanEntries l = true ↔ ∀ e ∈ l, cleanStr e.1 = true ∧ cleanNode e.2 = true := by
  induction l with
  | nil => simp [cleanEntries]
  | cons e rest ih =>
      obtain ⟨k, v⟩ := e
      simp only [cleanEntries, Bool.and_eq_true, ih, List.mem_cons]
      constructor
      · rintro ⟨⟨hk, hv⟩, hrest⟩ e2 (rfl | he2)
        · exact ⟨hk, hv⟩
        · exact hrest e2 he2
      · intro hall
        exact ⟨hall (k, v) (Or.inl rfl), fun e2 he2 => hall e2 (Or.inr he2)⟩

/-- Helper: membership description of item list cleanliness. -/
theorem cleanItems_iff (l : List YamlNode) :
    cleanItems l = true ↔ ∀ v ∈ l, cleanNode v = true := by
  induction l with
  | nil => simp [cleanItems]
  | cons v rest ih =>
      simp only [cleanItems, Bool.and_eq_true, ih, List.mem_cons]
      constructor
      · rintro ⟨hv, hrest⟩ v2 (rfl | hv2)
        · exact hv
        · exact hrest v2 hv2
      · intro hall
        exact ⟨hall v (Or.inl rfl), fun v2 hv2 => hall v2 (Or.inr hv2)⟩

/-- Helper: sanitisation preserves cleanliness of keys and scalars. -/
theorem cleanNode_sanitise (p : FieldSpec → Bool) (rt : Bool) :
    ∀ n, cleanNode n = true → ∀ specs, cleanNode (SanitiseYAML p rt specs n) = true := by
  refine YamlNode.forAll
    (fun n => cleanNode n = true → ∀ specs, cleanNode (SanitiseYAML p rt specs n) = true)
    ?_ ?_ ?_
  · intro s h specs
    simpa [SanitiseYAML, cleanNode] using h
  · intro entries ih h specs
    simp only [SanitiseYAML, cleanNode]
    rw [cleanEntries_iff]
    intro e he
    have he1 := mem_of_mem_reorderKept _ _ _ he
    unfold keepEntries at he1
    have he2 := (List.mem_filter.mp he1).1
    have he3 := ((mem_removeTypeKey _ _ _).mp he2).1
    rw [sanitiseEntries_eq_map] at he3
    rcases List.mem_map.mp he3 with ⟨orig, horig, heq⟩
    have h2 : cleanEntries entries = true := by simpa [cleanNode] using h
    obtain ⟨hk, hv⟩ := (cleanEntries_iff entries).mp h2 orig horig
    rw [← heq]
    exact ⟨hk, ih orig horig hv (childSpecsFor specs orig.1)⟩
  · intro items ih h specs
    simp only [SanitiseYAML, cleanNode]
    rw [sanitiseItems_eq_map, cleanItems_iff]
    intro v hv
    rcases List.mem_map.mp hv with ⟨v0, hv0, rfl⟩
    have h2 : cleanItems items = true := by simpa [cleanNode] using h
    exact ih v0 hv0 ((cleanItems_iff items).mp h2 v0 hv0) specs

/-- Helper: lines produced for a clean entry list are newline free. -/
theorem entryLinesList_clean (l : List (String × YamlNode))
    (ih : ∀ e ∈ l, cleanNode e.2 = true → ∀ s ∈ yamlLines e.2, cleanStr s = true)
    (hc : ∀ e ∈ l, cleanStr e.1 = true ∧ cleanNode e.2 = true) :
    ∀ s ∈ entryLinesList l, cleanStr s = true := by
  induction l with
  | nil => simp [entryLinesList]
  | cons e rest ihr =>
      obtain ⟨k, v⟩ := e
      obtain ⟨hk, hv⟩ := hc (k, v) (by simp)
      have ihrest := ihr (fun e2 he2 => ih e2 (by simp [he2]))
        (fun e2 he2 => hc e2 (by simp [he2]))
      have hvlines : ∀ s ∈ yamlLines v, cleanStr s = true := ih (k, v) (by simp) hv
      have hcol : cleanStr ": " = true := by decide
      have hcolon : cleanStr ":" = true := by decide
      have hind : cleanStr "  " = true := by decide
      intro s hs
      cases v with
      | scalar str =>
          simp only [entryLinesList, List.mem_cons] at hs
          rcases hs with rfl | hs
          · have hstr : cleanStr str = true := by simpa [cleanNode] using hv
            simp [cleanStr_append, hk, hcol, hstr]
          · exact ihrest s hs
      | mapping es =>
          cases es with
          | nil =>
              simp only [entryLinesList, List.mem_cons] at hs
              rcases hs with rfl | hs
              · have hbr : cleanStr "\x7b\x7d" = true := by decide
                simp [cleanStr_append, hk, hcol, hbr]
              · exact ihrest s hs
          | cons e2 rest2 =>
              simp only [entryLinesList, List.cons_append, List.mem_cons,
                List.mem_append, List.mem_map] at hs
              rcases hs with rfl | hs2
              · simp [cleanStr_append, hk, hcolon]
              · rcases hs2 with ⟨x, hx, rfl⟩ | hs3
                · have hx2 := hvlines x hx
                  simp [cleanStr_append, hind, hx2]
                · exact ihrest s hs3
      | sequence vs =>
          cases vs with
          | nil =>
              simp only [entryLinesList, List.mem_cons] at hs
              rcases hs with rfl | hs
              · have hbr : cleanStr "[]" = true := by decide
                simp [cleanStr_append, hk, hcol, hbr]
              · exact ihrest s hs
          | cons v2 rest2 =>
              simp only [entryLinesList, List.cons_append, List.mem_cons,
                List.mem_append, List.mem_map] at hs
              rcases hs with rfl | hs2
              · simp [cleanStr_append, hk, hcolon]
              · rcases hs2 with ⟨x, hx, rfl⟩ | hs3
                · have hx2 := hvlines x hx
                  simp [cleanStr_append, hind, hx2]
                · exact ihrest s hs3

/-- Helper: lines produced for a clean item list are newline free. -/
theorem itemLinesList_clean (l : List YamlNode)
    (ih : ∀ v ∈ l, cleanNode v = true → ∀ s ∈ yamlLines v, cleanStr s = true)
    (hc : ∀ v ∈ l, cleanNode v = true) :
    ∀ s ∈ itemLinesList l, cleanStr s = true := by
  induction l with
  | nil => simp [itemLinesList]
  | cons v rest ihr =>
      have hdash : cleanStr "- " = true := by decide
      have hind : cleanStr "  " = true := by decide
      intro s hs
      simp only [itemLinesList, List.mem_append] at hs
      rcases hs with hs | hs
      · have hlines := ih v (by simp) (hc v (by simp))
        cases hy : yamlLines v with
        | nil =>
            rw [hy] at hs
            simp at hs
            subst hs
            decide
        | cons l0 ls =>
            rw [hy] at hs
            simp only [List.mem_cons, List.mem_map] at hs
            rcases hs with rfl | ⟨x, hx, rfl⟩
            · have h0 := hlines l0 (by rw [hy]; simp)
              simp [cleanStr_append, hdash, h0]
            · have h0 := hlines x (by rw [hy]; simp [hx])
              simp [cleanStr_append, hind, h0]
      · exact ihr (fun v2 hv2 => ih v2 (by simp [hv2]))
          (fun v2 hv2 => hc v2 (by simp [hv2])) s hs

/-- Helper: every serialized line of a clean node is newline free. -/
theorem yamlLines_clean : ∀ n, cleanNode n = true → ∀ l ∈ yamlLines n, cleanStr l = true := by
  refine YamlNode.forAll
    (fun n => cleanNode n = true → ∀ l ∈ yamlLines n, cleanStr l = true) ?_ ?_ ?_
  · intro s h l hl
    simp only [yamlLines, List.mem_singleton] at hl
    subst hl
    simpa [cleanNode] using h
  · intro entries ih h l hl
    cases entries with
    | nil =>
        simp only [yamlLines, List.mem_singleton] at hl
        subst hl
        decide
    | cons e rest =>
        have h2 : ∀ e2 ∈ (e :: rest), cleanStr e2.1 = true ∧ cleanNode e2.2 = true :=
          (cleanEntries_iff _).mp (by simpa [cleanNode] using h)
        have heq : yamlLines (YamlNode.mapping (e :: rest)) = entryLinesList (e :: rest) := by
          simp only [yamlLines]
        rw [heq] at hl
        exact entryLinesList_clean _ ih h2 l hl
  · intro items ih h l hl
    cases items with
    | nil =>
        simp only [yamlLines, List.mem_singleton] at hl
        subst hl
        decide
    | cons v rest =>
        have h2 : ∀ v2 ∈ (v :: rest), cleanNode v2 = true :=
          (cleanItems_iff _).mp (by simpa [cleanNode] using h)
        have heq : yamlLines (YamlNode.sequence (v :: rest)) = itemLinesList (v :: rest) := by
          simp only [yamlLines]
        rw [heq] at hl
        exact itemLinesList_clean _ ih h2 l hl

/-- Helper: the serialized form of a clean single entry mapping, textually
unwrapped at its key, is the serialized form of the wrapped node. -/
theorem unwrapConfigText_marshal_wrap (t : String) (v : YamlNode)
    (hct : cleanStr t = true) (hcv : cleanNode v = true) :
    unwrapConfigText t (marshalYAML (YamlNode.mapping [(t, v)])) = marshalYAML v := by
  have hwrap : cleanNode (YamlNode.mapping [(t, v)]) = true := by
    simp only [cleanNode, cleanEntries]
    simp [hct, hcv]
  unfold unwrapConfigText marshalYAML
  rw [splitLines_unlines _ (yamlLines_clean _ hwrap), unwrapLines_wrap]

/-- C5: when the raw example encodes to a node whose keys and scalars are
newline free and the type identifier is newline free, the output of
genExampleConfigs with nesting, textually unwrapped at its single top level
key equal to the type identifier, equals the output without nesting, both
for the common and for the advanced configuration text. -/
theorem nestedUnwrapsToUnnested (t : String) (specs : List FieldSpec) (ex : GoValue)
    (node : YamlNode) (c1 a1 c2 a2 : String)
    (henc : encodeValue ex = Except.ok node)
    (hct : cleanStr t = true)
    (hcn : cleanNode node = true)
    (hT : genExampleConfigs t true specs ex = GenResult.ok c1 a1)
    (hF : genExampleConfigs t false specs ex = GenResult.ok c2 a2) :
    unwrapConfigText t c1 = c2 ∧ unwrapConfigText t a1 = a2 := by
  have hco : ∀ filt, createOrderedConfig specs ex filt
      = Except.ok (SanitiseYAML filt true specs node) := by
    intro filt
    unfold createOrderedConfig
    rw [henc]
  unfold genExampleConfigs at hT hF
  rw [hco advancedFieldFilter, hco commonFieldFilter] at hT hF
  simp only [GenResult.ok.injEq] at hT hF
  obtain ⟨hT1, hT2⟩ := hT
  obtain ⟨hF1, hF2⟩ := hF
  subst hT1
  subst hT2
  subst hF1
  subst hF2
  constructor
  · exact unwrapConfigText_marshal_wrap t _ hct
      (cleanNode_sanitise commonFieldFilter true node hcn specs)
  · exact unwrapConfigText_marshal_wrap t _ hct
      (cleanNode_sanitise advancedFieldFilter true node hcn specs)

/-- Witness for C5 on the spec example scenario with type identifier
processor. -/
theorem nestedUnwrapsToUnnested_witness :
    unwrapConfigText "processor" "processor:\n  a: 1\n" = "a: 1\n" ∧
    unwrapConfigText "processor" "processor:\n  a: 1\n  b: 2\n" = "a: 1\nb: 2\n" :=
  nestedUnwrapsToUnnested "processor" sampleConfigSpec.children sampleExample
    (YamlNode.mapping
      [("c", YamlNode.scalar "3"), ("a", YamlNode.scalar "1"), ("b", YamlNode.scalar "2")])
    "processor:\n  a: 1\n" "processor:\n  a: 1\n  b: 2\n" "a: 1\n" "a: 1\nb: 2\n"
    (by rfl) (by decide) (by decide) (by rfl) (by rfl)
